import Mathlib

/-!
Verification of the mail-send SMTP client core against its design
specification.  The development shallowly embeds the four core
components — the transparency encoder, the response reader, the command
pipeline and the session establisher — and settles the specification's
claims about them.
-/

set_option maxRecDepth 4096

namespace MailSend

/-! ## Transparency encoder (`write_message`)

Modelled from the spec: `write_message` itself is not among the given
source files; only its in-repo test `transparency_procedure`
(src/src/smtp/client.rs) is.  The model follows §4.1 of the design
document — every line boundary (CRLF, bare CR, bare LF) is recognized,
a period at the start of a line is escaped by one additional period,
and the terminator CRLF "." CRLF is appended unconditionally — except
for the line-ending-normalization sentence, which the test's expected
outputs refute (they keep bare CR and bare LF verbatim).  The model is
validated below against the test's input/output vectors.
-/

/-- Is this character a line-boundary character (CR or LF)? -/
def isBreak (c : Char) : Bool :=
  c = '\r' || c = '\n'

/-- One pass over the message bytes.  The flag records whether the next
character sits at the start of a line (start of message, or right after
a CR or LF).  A period at the start of a line is emitted doubled; every
input character, boundaries included, is emitted unchanged. -/
def dotStuff : Bool → List Char → List Char
  | _, [] => []
  | atStart, c :: rest =>
    if atStart && c = '.' then
      '.' :: '.' :: dotStuff false rest
    else if isBreak c then
      c :: dotStuff true rest
    else
      c :: dotStuff false rest

/-- The mandatory terminator sequence CRLF "." CRLF. -/
def terminator : List Char := ['\r', '\n', '.', '\r', '\n']

/-- The transparency encoding: dot-stuff the body, then append the
terminator unconditionally. -/
def writeMessage (msg : List Char) : List Char :=
  dotStuff true msg ++ terminator

/-- Inverse of the stuffing pass: at the start of a line, a period is
necessarily an inserted escape and is dropped (the rest of the line then
continues in mid-line state); everything else is kept. -/
def unstuff : Bool → List Char → List Char
  | _, [] => []
  | atStart, c :: rest =>
    if atStart && c = '.' then
      unstuff false rest
    else if isBreak c then
      c :: unstuff true rest
    else
      c :: unstuff false rest

/-- Does a character list consist of CRLF pairs only, with no bare CR
and no bare LF?  This is the "every boundary is CRLF" reading of the
normalization sentence. -/
def crlfOnly : List Char → Bool
  | [] => true
  | '\r' :: '\n' :: rest => crlfOnly rest
  | '\r' :: _ => false
  | '\n' :: _ => false
  | _ :: rest => crlfOnly rest

/-- Split a message into (line content, boundary) pieces: the content
holds no CR/LF, the boundary is CRLF, bare CR, bare LF, or empty for
the final piece. -/
def splitB : List Char → List (List Char × List Char)
  | [] => [([], [])]
  | '\r' :: '\n' :: rest => ([], ['\r', '\n']) :: splitB rest
  | '\r' :: rest => ([], ['\r']) :: splitB rest
  | '\n' :: rest => ([], ['\n']) :: splitB rest
  | c :: rest =>
    match splitB rest with
    | [] => [([c], [])]
    | (l, b) :: tail => (c :: l, b) :: tail

/-- Escape one line: a line whose first character is a period gets
exactly one additional period prepended; any other line is unchanged. -/
def escLine (l : List Char) : List Char :=
  if l.head? = some '.' then '.' :: l else l

/-- Reassemble the pieces with each line escaped. -/
def eJoin (ps : List (List Char × List Char)) : List Char :=
  (ps.map fun p => escLine p.1 ++ p.2).flatten

/-- Reassemble with the first piece taken mid-line (not escaped) and
every later piece escaped. -/
def mJoin : List (List Char × List Char) → List Char
  | [] => []
  | (l, b) :: tail => l ++ b ++ eJoin tail

/-- Reassemble the pieces verbatim. -/
def iJoin (ps : List (List Char × List Char)) : List Char :=
  (ps.map fun p => p.1 ++ p.2).flatten

/-! ## Response reader (`read`, `read_many`, src/src/smtp/client.rs)

The response grammar parser (`smtp_proto::ResponseReceiver`) is an
external collaborator; per its interface it is a resumable, stateful,
byte-at-a-time consumer that yields a complete reply, a needs-more-data
signal, or a grammar error.  It is embedded as an abstract deterministic
machine: `init` is the `default()`/`reset()` state and `step` consumes
one byte. -/

/-- One parser step: continue in a new state, complete a reply, or
report a grammar error. -/
inductive StepOut (σ R : Type) where
  | cont (s : σ)
  | done (r : R)
  | fail
deriving DecidableEq

/-- An abstract response grammar parser. -/
structure Machine (σ R : Type) where
  init : σ
  step : σ → Nat → StepOut σ R

/-- Outcome of one `parse(&mut iter)` call. -/
inductive ParseOut (σ R : Type) where
  | complete (r : R) (left : List Nat)
  | more (s : σ)
  | failed
deriving DecidableEq

/-- `parser.parse(&mut iter)`: consume bytes from the cursor until the
reply completes (leaving the unconsumed bytes in the cursor), the bytes
run out (needs more data), or the grammar is violated. -/
def parse (M : Machine σ R) : σ → List Nat → ParseOut σ R
  | s, [] => .more s
  | s, b :: rest =>
    match M.step s b with
    | .cont s' => parse M s' rest
    | .done r => .complete r rest
    | .fail => .failed

/-- Modelled from the spec: the `crate::Error` enum is not among the
given source files; the variants follow the error taxonomy of spec §7
(transport error, timeout, unparseable reply, missing-upgrade-support,
protocol rejection, authentication failure). -/
inductive SErr where
  | transport
  | timeout
  | unparseableReply
  | missingStartTls
  | protocolRejection
  | authFailed
deriving DecidableEq

/-- One result of `self.stream.read(&mut buf)`: a delivered byte chunk
(possibly empty, modelling a zero-byte read / closed peer), or an I/O
error propagated by `?`. -/
inductive Chunk where
  | data (bytes : List Nat)
  | fail
deriving DecidableEq

/-- The payload bytes of a chunk. -/
def chunkBytes : Chunk → List Nat
  | .data bs => bs
  | .fail => []

/-- The loop body of `read` (client.rs:22-43), with the parser state
explicit: pull a chunk; a zero-byte read or exhausted transport is an
unparseable-reply error, an I/O error propagates, a completed reply is
returned (leftover bytes of the chunk are dropped with the local
buffer), needs-more-data loops with the parser state retained, and a
grammar error is an unparseable-reply error.  Returns the result
together with the chunks not yet pulled. -/
def readT (M : Machine σ R) : σ → List Chunk → Except SErr R × List Chunk
  | _, [] => (.error .unparseableReply, [])
  | _, .fail :: rest => (.error .transport, rest)
  | _, .data [] :: rest => (.error .unparseableReply, rest)
  | s, .data (b :: bs) :: rest =>
    match parse M s (b :: bs) with
    | .complete r _ => (.ok r, rest)
    | .more s' => readT M s' rest
    | .failed => (.error .unparseableReply, rest)

/-- `read` (client.rs:22): a fresh `ResponseReceiver::default()` parser,
then the chunk loop. -/
def read (M : Machine σ R) (chunks : List Chunk) : Except SErr R × List Chunk :=
  readT M M.init chunks

/-- Outcome of draining one chunk inside `read_many`'s inner loop. -/
inductive FeedOut (σ R : Type) where
  | finished (rs : List R)
  | needMore (acc : List R) (s : σ)
  | failed
deriving DecidableEq

/-- The inner loop of `read_many` (client.rs:56-73) over one chunk's
bytes, fused with the parser steps: each completed reply is pushed; if
the accumulated count differs from `num` the parser is reset
(`M.init`) and parsing continues on the remaining bytes of the same
chunk, otherwise the outer loop is broken with the accumulated replies;
needs-more-data ends the chunk keeping the parser state; a grammar
error aborts.  `feedMany_eq_parse` below recovers the source's
`parser.parse(&mut iter)`-shaped unfolding. -/
def feedMany (M : Machine σ R) (num : Nat) : List R → σ → List Nat → FeedOut σ R
  | acc, s, [] => .needMore acc s
  | acc, s, b :: rest =>
    match M.step s b with
    | .cont s' => feedMany M num acc s' rest
    | .done r =>
      if (acc ++ [r]).length = num then .finished (acc ++ [r])
      else feedMany M num (acc ++ [r]) M.init rest
    | .fail => .failed

/-- The outer loop of `read_many` (client.rs:50-77): pull chunks,
feeding each to the inner loop, with the same error cases as `read`. -/
def readManyT (M : Machine σ R) (num : Nat) :
    List R → σ → List Chunk → Except SErr (List R) × List Chunk
  | _, _, [] => (.error .unparseableReply, [])
  | _, _, .fail :: rest => (.error .transport, rest)
  | _, _, .data [] :: rest => (.error .unparseableReply, rest)
  | acc, s, .data (b :: bs) :: rest =>
    match feedMany M num acc s (b :: bs) with
    | .finished rs => (.ok rs, rest)
    | .needMore acc' s' => readManyT M num acc' s' rest
    | .failed => (.error .unparseableReply, rest)

/-- `read_many` (client.rs:45): empty accumulator, fresh parser. -/
def readMany (M : Machine σ R) (num : Nat) (chunks : List Chunk) :
    Except SErr (List R) × List Chunk :=
  readManyT M num [] M.init chunks

/-- `read` called `n` times sequentially, threading the transport. -/
def readN (M : Machine σ R) : Nat → List Chunk → Except SErr (List R) × List Chunk
  | 0, chunks => (.ok [], chunks)
  | n + 1, chunks =>
    match readT M M.init chunks with
    | (.ok r, rest) =>
      match readN M n rest with
      | (.ok rs, rest') => (.ok (r :: rs), rest')
      | (.error e, rest') => (.error e, rest')
    | (.error e, rest) => (.error e, rest)

/-- Alignment of a chunked transport stream with reply boundaries: the
chunk groups and expected replies correspond one to one, every chunk is
nonempty, and each group's concatenated bytes parse from the reset
state to exactly its reply with nothing left over (replies may still be
split across many chunks within a group). -/
def alignedB (M : Machine σ R) [DecidableEq R] :
    List (List (List Nat)) → List R → Bool
  | [], [] => true
  | g :: gs, r :: rs =>
    (!g.isEmpty) && g.all (fun c => !c.isEmpty) &&
    (match parse M M.init g.flatten with
     | .complete r' left => r' = r && left.isEmpty
     | _ => false) &&
    alignedB M gs rs
  | _, _ => false

/-- The transport chunk stream of a list of chunk groups. -/
def chunksOf (groups : List (List (List Nat))) : List Chunk :=
  groups.flatten.map Chunk.data

/-! ## Command pipeline (`cmd`, `cmds`, src/src/smtp/client.rs:83-109)

Time is embedded explicitly: each transport action has a duration, and
the `timeout(self.timeout, async { ... })` wrapper yields the distinct
timeout error exactly when the inner sequence has not completed within
the budget, and the inner result (a reply or a propagated error)
otherwise. -/

/-- Time consumed by the read loop: the latencies of the chunks it
pulled (`lats` is parallel to `chunks`; `rest` is what was left). -/
def readElapsed (chunks rest : List Chunk) (lats : List Nat) : Nat :=
  (lats.take (chunks.length - rest.length)).sum

/-- `cmd` (client.rs:83-91): `write_all` + `flush` (one timed phase
`wr = (duration, failed)`) then `read`, the whole sequence inside the
per-call timeout; elapse of the budget before the inner sequence stops
is mapped to the timeout error. -/
def cmd (M : Machine σ R) (budget : Nat) (wr : Nat × Bool)
    (chunks : List Chunk) (lats : List Nat) : Except SErr R :=
  if wr.2 then
    if budget < wr.1 then .error .timeout else .error .transport
  else
    let out := readT M M.init chunks
    if budget < wr.1 + readElapsed chunks out.2 lats then .error .timeout
    else out.1

/-- The write loop of `cmds` (client.rs:100-103): write every command
in order, stopping at the first failure; returns the elapsed duration,
whether a write failed, and the number of commands written
(`num_replies`). -/
def writePhase : List (Nat × Bool) → Nat × Bool × Nat
  | [] => (0, false, 0)
  | (d, true) :: _ => (d, true, 0)
  | (d, false) :: rest =>
    let w := writePhase rest
    (d + w.1, w.2.1, w.2.2 + 1)

/-- Total duration of the inner sequence of `cmd` (where it stops:
write failure, or write + read completion). -/
def cmdElapsed (M : Machine σ R) (wt : Nat) (werr : Bool)
    (chunks : List Chunk) (lats : List Nat) : Nat :=
  if werr then wt
  else wt + readElapsed chunks (readT M M.init chunks).2 lats

/-- `cmds` (client.rs:94-109): the write loop, one `flush`, then
`read_many(num_replies)`, all inside the per-call timeout. -/
def cmds (M : Machine σ R) (budget : Nat) (writes : List (Nat × Bool))
    (flushT : Nat) (flushErr : Bool) (chunks : List Chunk)
    (lats : List Nat) : Except SErr (List R) :=
  let w := writePhase writes
  if w.2.1 then
    if budget < w.1 then .error .timeout else .error .transport
  else if flushErr then
    if budget < w.1 + flushT then .error .timeout else .error .transport
  else
    let out := readManyT M w.2.2 [] M.init chunks
    if budget < w.1 + flushT + readElapsed chunks out.2 lats then
      .error .timeout
    else out.1

/-- Total duration of the inner sequence of `cmds`. -/
def cmdsElapsed (M : Machine σ R) (writes : List (Nat × Bool))
    (flushT : Nat) (flushErr : Bool) (chunks : List Chunk)
    (lats : List Nat) : Nat :=
  let w := writePhase writes
  if w.2.1 then w.1
  else if flushErr then w.1 + flushT
  else w.1 + flushT +
    readElapsed chunks (readManyT M w.2.2 [] M.init chunks).2 lats

/-! ## Session establisher (`connect`, src/src/smtp/builder.rs:66-106) -/

/-- The security mode of the `worker::SecureTransport` configuration. -/
inductive SecTrans where
  | plain
  | implicitTls
  | startTls
deriving DecidableEq

/-- A parsed reply as far as the establisher inspects it.  Modelled
from the spec: replies are classified by the leading digit of their
status code (§3); `assert_positive_completion` (the `AssertReply`
helper, not among the given sources) accepts exactly the
positive-completion class. -/
structure SReply where
  code : Nat
deriving DecidableEq

/-- The capability set as far as the establisher inspects it.  Modelled
from the spec: `EhloResponse::has_capability(EXT_START_TLS)` is the one
query `connect` makes of it. -/
structure EhloResp where
  hasStartTls : Bool
deriving DecidableEq

/-- The operations `connect` can invoke, in invocation order. -/
inductive Ev where
  | openSock
  | greet
  | ehloPre
  | tlsUpgrade
  | caps
  | auth
deriving DecidableEq

/-- The builder configuration consumed by `connect` (timeout, security
mode, LMTP flag, optional credentials, say-EHLO flag). -/
structure BuilderCfg where
  timeout : Nat
  secureTransport : SecTrans
  isLmtp : Bool
  credentials : Option Unit
  sayEhlo : Bool
deriving DecidableEq

/-- Outcomes of the external collaborators `connect` drives, one slot
per step.  The greeting is read with the source's `read` over the
transport's chunk stream; `greetingLats` are the chunk latencies.
Modelled from the spec: `ehlo`/`lhlo`, `start_tls` and `authenticate`
are not among the given sources; each is represented by its outcome
(the EHLO exchanges by the capability set they return). -/
structure ConnectEnv where
  openOk : Option SErr
  greeting : List Chunk
  greetingLats : List Nat
  ehloPre : Except SErr EhloResp
  tlsUpgrade : Option SErr
  ehloCaps : Except SErr EhloResp
  auth : Option SErr

/-- The post-upgrade tail of `connect` (builder.rs:96-105): if
`say_ehlo`, obtain capabilities and, if credentials are configured,
authenticate; otherwise return the client directly. -/
def postUpgrade (cfg : BuilderCfg) (env : ConnectEnv) (evs : List Ev) :
    List Ev × Except SErr Unit :=
  if cfg.sayEhlo then
    match env.ehloCaps with
    | .error e => (evs ++ [.caps], .error e)
    | .ok _ =>
      match cfg.credentials with
      | some _ =>
        match env.auth with
        | some e => (evs ++ [.caps, .auth], .error e)
        | none => (evs ++ [.caps, .auth], .ok ())
      | none => (evs ++ [.caps], .ok ())
  else (evs, .ok ())

/-- `connect` (builder.rs:66-106): open the socket, read the greeting
with `read` and require positive completion, then — only when the
configuration asks for StartTls — run EHLO/LHLO and either upgrade (if
the capability set advertises StartTls) or fail with the
missing-upgrade-support error; finally the `postUpgrade` tail.  Returns
the invoked operations alongside the result.  Note that the greeting
read is not wrapped in any timeout: the budget and the latencies are
never consulted. -/
def connect (M : Machine σ SReply) (cfg : BuilderCfg) (env : ConnectEnv) :
    List Ev × Except SErr Unit :=
  match env.openOk with
  | some e => ([.openSock], .error e)
  | none =>
    match (readT M M.init env.greeting).1 with
    | .error e => ([.openSock, .greet], .error e)
    | .ok r =>
      if r.code / 100 = 2 then
        if cfg.secureTransport = .startTls then
          match env.ehloPre with
          | .error e => ([.openSock, .greet, .ehloPre], .error e)
          | .ok resp =>
            if resp.hasStartTls then
              match env.tlsUpgrade with
              | some e => ([.openSock, .greet, .ehloPre, .tlsUpgrade], .error e)
              | none => postUpgrade cfg env [.openSock, .greet, .ehloPre, .tlsUpgrade]
            else ([.openSock, .greet, .ehloPre], .error .missingStartTls)
        else postUpgrade cfg env [.openSock, .greet]
      else ([.openSock, .greet], .error .protocolRejection)

/-! ## Concrete machines used for witnesses and counterexamples -/

/-- A minimal conforming grammar machine: a reply is one byte line
terminated by LF (byte 10); the reply value is the line's bytes. -/
def lineM : Machine (List Nat) (List Nat) where
  init := []
  step s b := if b = 10 then .done s.reverse else .cont (b :: s)

/-- A degenerate conforming grammar machine: any byte completes a
positive-completion 220 greeting. -/
def greetM : Machine Unit SReply where
  init := ()
  step _ _ := .done ⟨220⟩

/-- A minimal conforming grammar machine with grammar errors: byte 0 is
a grammar error, LF (byte 10) completes the line, anything else
accumulates. -/
def lineFM : Machine (List Nat) (List Nat) where
  init := []
  step s b :=
    if b = 0 then .fail
    else if b = 10 then .done s.reverse
    else .cont (b :: s)

/-! Validation of the model against the `transparency_procedure` test
vectors from src/src/smtp/client.rs. -/

example : writeMessage "A: b\r\n.\r\n".toList = "A: b\r\n..\r\n\r\n.\r\n".toList := by decide
example : writeMessage "A: b\r\n.".toList = "A: b\r\n..\r\n.\r\n".toList := by decide
example : writeMessage "A: b\r\n..\r\n".toList = "A: b\r\n...\r\n\r\n.\r\n".toList := by decide
example : writeMessage "A: ...b".toList = "A: ...b\r\n.\r\n".toList := by decide
example :
    writeMessage "A: \n.\r\nMAIL FROM:<>".toList
      = "A: \n..\r\nMAIL FROM:<>\r\n.\r\n".toList := by decide
example :
    writeMessage "A: \r.\r\nMAIL FROM:<>".toList
      = "A: \r..\r\nMAIL FROM:<>\r\n.\r\n".toList := by decide

/-! ### Structural lemmas about the encoder -/

theorem splitB_ne_nil (msg : List Char) : splitB msg ≠ [] := by
  induction msg using splitB.induct <;> simp_all [splitB]

theorem dotStuff_eq_splitB (msg : List Char) :
    dotStuff true msg = eJoin (splitB msg) ∧
    dotStuff false msg = mJoin (splitB msg) := by
  induction msg using splitB.induct with
  | case1 => simp [dotStuff, splitB, eJoin, mJoin, escLine]
  | case2 rest ih =>
    obtain ⟨ih1, _⟩ := ih
    simp [dotStuff, splitB, eJoin, mJoin, escLine, isBreak, ih1]
  | case3 rest h ih =>
    obtain ⟨ih1, _⟩ := ih
    simp [dotStuff, splitB, eJoin, mJoin, escLine, isBreak, ih1]
  | case4 rest ih =>
    obtain ⟨ih1, _⟩ := ih
    simp [dotStuff, splitB, eJoin, mJoin, escLine, isBreak, ih1]
  | case5 c rest h1 h2 h3 hsp ih =>
    exact absurd hsp (splitB_ne_nil rest)
  | case6 c rest h1 h2 h3 l b tail hsp ih =>
    obtain ⟨_, ih2⟩ := ih
    rw [hsp] at ih2
    have hcr : c ≠ '\r' := fun hc => h2 hc
    have hln : c ≠ '\n' := fun hc => h3 hc
    have hbr : isBreak c = false := by simp [isBreak, hcr, hln]
    by_cases hdot : c = '.'
    · subst hdot
      simp [dotStuff, splitB, hsp, eJoin, mJoin, escLine, isBreak, ih2]
    · simp [dotStuff, splitB, hsp, eJoin, mJoin, escLine, hbr, hdot, ih2]

theorem iJoin_splitB (msg : List Char) : iJoin (splitB msg) = msg := by
  induction msg using splitB.induct with
  | case1 => simp [splitB, iJoin]
  | case2 rest ih => simp [splitB, iJoin]; simpa [iJoin] using ih
  | case3 rest h ih => simp [splitB, iJoin]; simpa [iJoin] using ih
  | case4 rest ih => simp [splitB, iJoin]; simpa [iJoin] using ih
  | case5 c rest h1 h2 h3 hsp ih => exact absurd hsp (splitB_ne_nil rest)
  | case6 c rest h1 h2 h3 l b tail hsp ih =>
    rw [hsp] at ih
    simp [splitB, hsp, iJoin] at ih ⊢
    simpa using ih

theorem splitB_wellFormed (msg : List Char) :
    ∀ p ∈ splitB msg, (∀ c ∈ p.1, isBreak c = false) ∧
      (p.2 = [] ∨ p.2 = ['\r', '\n'] ∨ p.2 = ['\r'] ∨ p.2 = ['\n']) := by
  induction msg using splitB.induct with
  | case1 => simp [splitB]
  | case2 rest ih =>
    intro p hp
    rcases List.mem_cons.mp (by simpa [splitB] using hp) with h | h
    · subst h; simp
    · exact ih p h
  | case3 rest h ih =>
    intro p hp
    rcases List.mem_cons.mp (by simpa [splitB] using hp) with h' | h'
    · subst h'; simp
    · exact ih p h'
  | case4 rest ih =>
    intro p hp
    rcases List.mem_cons.mp (by simpa [splitB] using hp) with h | h
    · subst h; simp
    · exact ih p h
  | case5 c rest h1 h2 h3 hsp ih => exact absurd hsp (splitB_ne_nil rest)
  | case6 c rest h1 h2 h3 l b tail hsp ih =>
    intro p hp
    have hcr : c ≠ '\r' := fun hc => h2 hc
    have hln : c ≠ '\n' := fun hc => h3 hc
    have hbr : isBreak c = false := by simp [isBreak, hcr, hln]
    have hhead := ih (l, b) (by rw [hsp]; exact List.mem_cons_self _ _)
    rcases List.mem_cons.mp (by simpa [splitB, hsp] using hp) with h' | h'
    · subst h'
      refine ⟨?_, hhead.2⟩
      intro d hd
      rcases List.mem_cons.mp hd with h'' | h''
      · subst h''; exact hbr
      · exact hhead.1 d h''
    · exact ih p (by rw [hsp]; exact List.mem_cons_of_mem _ h')

theorem unstuff_dotStuff (msg : List Char) :
    unstuff true (dotStuff true msg) = msg ∧
    unstuff false (dotStuff false msg) = msg := by
  induction msg with
  | nil => simp [dotStuff, unstuff]
  | cons c rest ih =>
    obtain ⟨ih1, ih2⟩ := ih
    by_cases hdot : c = '.'
    · subst hdot
      simp [dotStuff, unstuff, isBreak, ih2]
    · by_cases hbr : isBreak c = true
      · simp [dotStuff, unstuff, hdot, hbr, ih1]
      · simp [dotStuff, unstuff, hdot, hbr, ih2]

theorem dotStuff_filter_isBreak (b : Bool) (msg : List Char) :
    (dotStuff b msg).filter (fun c => isBreak c)
      = msg.filter (fun c => isBreak c) := by
  induction msg generalizing b with
  | nil => rfl
  | cons c rest ih =>
    simp only [dotStuff]
    split_ifs with h1 h2
    · have hc : c = '.' := by simp at h1; exact h1.2
      subst hc
      simp [List.filter_cons, show isBreak '.' = false from rfl, ih]
    · simp [List.filter_cons, h2, ih]
    · have hbr : isBreak c = false := by simpa using h2
      simp [List.filter_cons, hbr, ih]

/-! ### Claims about the transparency encoder -/

/-- C1, counterexample.  The claim states that every recognized line
boundary is rewritten as CRLF and that no bare CR or bare LF survives in
the encoded output.  On the input `"A: \n.\r\nMAIL FROM:<>"` — the fifth
vector of the repository's own `transparency_procedure` test — the
encoder's output (the very output that test asserts) retains the bare LF
unchanged, so the output is not CRLF-only. -/
theorem c1_counterexample :
    writeMessage "A: \n.\r\nMAIL FROM:<>".toList
        = "A: \n..\r\nMAIL FROM:<>\r\n.\r\n".toList ∧
    crlfOnly (writeMessage "A: \n.\r\nMAIL FROM:<>".toList) = false := by
  constructor
  · decide
  · decide

/-- C1, amended.  Line boundaries recognized in the input (CRLF, bare CR,
bare LF) are not normalized: they pass through the encoder verbatim.  The
encoder only inserts escape periods and appends the terminator: unstuffing
the stuffed body recovers the input exactly, and the CR/LF characters of
the stuffed body are exactly those of the input. -/
theorem c1_amended (msg : List Char) :
    unstuff true (dotStuff true msg) = msg ∧
    (dotStuff true msg).filter (fun c => isBreak c)
      = msg.filter (fun c => isBreak c) ∧
    writeMessage msg = dotStuff true msg ++ terminator :=
  ⟨(unstuff_dotStuff msg).1, dotStuff_filter_isBreak true msg, rfl⟩

/-- C2.  The encoder's output is exactly the input split into lines at
every CRLF, bare-CR or bare-LF boundary, with each line that begins with
a period given exactly one additional leading period and every other
line left unchanged (`escLine`), boundaries kept verbatim, followed by
the terminator; the split is a faithful decomposition of the input into
boundary-free line contents.  In particular `"A: b\r\n.\r\n"` encodes to
`"A: b\r\n..\r\n\r\n.\r\n"`. -/
theorem c2_dot_escaping (msg : List Char) :
    writeMessage msg = eJoin (splitB msg) ++ terminator ∧
    iJoin (splitB msg) = msg ∧
    (∀ p ∈ splitB msg, (∀ c ∈ p.1, isBreak c = false) ∧
      (p.2 = [] ∨ p.2 = ['\r', '\n'] ∨ p.2 = ['\r'] ∨ p.2 = ['\n'])) ∧
    writeMessage "A: b\r\n.\r\n".toList = "A: b\r\n..\r\n\r\n.\r\n".toList := by
  refine ⟨?_, iJoin_splitB msg, splitB_wellFormed msg, by decide⟩
  unfold writeMessage
  rw [(dotStuff_eq_splitB msg).1]

/-- C3.  The output of the transparency encoder always ends with the
terminator CRLF "." CRLF, appended unconditionally; an empty body yields
exactly the terminator and nothing else; a body with no trailing line
boundary (`"A: b\r\n."`, `"A: ...b"`) gets a synthetic boundary inserted
before the terminator. -/
theorem c3_terminator (msg : List Char) :
    terminator <:+ writeMessage msg ∧
    writeMessage [] = terminator ∧
    writeMessage "A: b\r\n.".toList = "A: b\r\n..\r\n.\r\n".toList ∧
    writeMessage "A: ...b".toList = "A: ...b\r\n.\r\n".toList :=
  ⟨⟨dotStuff true msg, rfl⟩, rfl, by decide, by decide⟩

/-! ### Structural lemmas about the abstract parser and the reader -/

theorem parse_append_more (M : Machine σ R) :
    ∀ (xs : List Nat) (s s' : σ) (ys : List Nat),
      parse M s xs = .more s' → parse M s (xs ++ ys) = parse M s' ys := by
  intro xs
  induction xs with
  | nil =>
    intro s s' ys h
    injection h with h'
    subst h'
    rfl
  | cons b rest ih =>
    intro s s' ys h
    cases hs : M.step s b with
    | cont s2 =>
      have h2 : parse M s2 rest = .more s' := by simpa [parse, hs] using h
      simpa [parse, hs] using ih s2 s' ys h2
    | done r => simp [parse, hs] at h
    | fail => simp [parse, hs] at h

theorem parse_append_complete (M : Machine σ R) :
    ∀ (xs : List Nat) (s : σ) (r : R) (left ys : List Nat),
      parse M s xs = .complete r left →
      parse M s (xs ++ ys) = .complete r (left ++ ys) := by
  intro xs
  induction xs with
  | nil => intro s r left ys h; simp [parse] at h
  | cons b rest ih =>
    intro s r left ys h
    cases hs : M.step s b with
    | cont s2 =>
      have h2 : parse M s2 rest = .complete r left := by simpa [parse, hs] using h
      simpa [parse, hs] using ih s2 r left ys h2
    | done r0 =>
      simp only [parse, hs] at h
      injection h with h1 h2
      subst h1; subst h2
      simp [parse, hs]
    | fail => simp [parse, hs] at h

theorem parse_append_failed (M : Machine σ R) :
    ∀ (xs : List Nat) (s : σ) (ys : List Nat),
      parse M s xs = .failed → parse M s (xs ++ ys) = .failed := by
  intro xs
  induction xs with
  | nil => intro s ys h; simp [parse] at h
  | cons b rest ih =>
    intro s ys h
    cases hs : M.step s b with
    | cont s2 =>
      have h2 : parse M s2 rest = .failed := by simpa [parse, hs] using h
      simpa [parse, hs] using ih s2 ys h2
    | done r0 => simp [parse, hs] at h
    | fail => simp [parse, hs]

/-- The byte-level inner loop unfolds exactly like the source's
`parser.parse(&mut iter)` loop: parse one reply off the cursor; on
completion push it, stop if the expected count is reached, otherwise
reset the parser and continue on the leftover bytes. -/
theorem feedMany_eq_parse (M : Machine σ R) (num : Nat) :
    ∀ (bytes : List Nat) (acc : List R) (s : σ),
      feedMany M num acc s bytes =
        match parse M s bytes with
        | .more s' => .needMore acc s'
        | .failed => .failed
        | .complete r left =>
          if (acc ++ [r]).length = num then .finished (acc ++ [r])
          else feedMany M num (acc ++ [r]) M.init left := by
  intro bytes
  induction bytes with
  | nil => intro acc s; rfl
  | cons b rest ih =>
    intro acc s
    cases hs : M.step s b with
    | cont s2 =>
      simpa [feedMany, parse, hs] using ih acc s2
    | done r => simp [feedMany, parse, hs]
    | fail => simp [feedMany, parse, hs]

theorem feedMany_append (M : Machine σ R) (num : Nat) :
    ∀ (xs ys : List Nat) (acc : List R) (s : σ),
      (∀ rs, feedMany M num acc s xs = .finished rs →
        feedMany M num acc s (xs ++ ys) = .finished rs) ∧
      (∀ acc' s', feedMany M num acc s xs = .needMore acc' s' →
        feedMany M num acc s (xs ++ ys) = feedMany M num acc' s' ys) ∧
      (feedMany M num acc s xs = .failed →
        feedMany M num acc s (xs ++ ys) = .failed) := by
  intro xs
  induction xs with
  | nil =>
    intro ys acc s
    refine ⟨?_, ?_, ?_⟩
    · intro rs h; simp [feedMany] at h
    · intro acc' s' h
      simp only [feedMany] at h
      injection h with h1 h2
      subst h1; subst h2
      rfl
    · intro h; simp [feedMany] at h
  | cons b rest ih =>
    intro ys acc s
    cases hs : M.step s b with
    | cont s2 =>
      refine ⟨?_, ?_, ?_⟩
      · intro rs h
        have h' : feedMany M num acc s2 rest = .finished rs := by
          simpa [feedMany, hs] using h
        simpa [feedMany, hs] using (ih ys acc s2).1 rs h'
      · intro acc' s' h
        have h' : feedMany M num acc s2 rest = .needMore acc' s' := by
          simpa [feedMany, hs] using h
        simpa [feedMany, hs] using (ih ys acc s2).2.1 acc' s' h'
      · intro h
        have h' : feedMany M num acc s2 rest = .failed := by
          simpa [feedMany, hs] using h
        simpa [feedMany, hs] using (ih ys acc s2).2.2 h'
    | done r =>
      by_cases hn : acc.length + 1 = num
      · refine ⟨?_, ?_, ?_⟩
        · intro rs h
          simp [feedMany, hs, hn] at h ⊢
          exact h
        · intro acc' s' h
          simp [feedMany, hs, hn] at h
        · intro h
          simp [feedMany, hs, hn] at h
      · refine ⟨?_, ?_, ?_⟩
        · intro rs h
          have h' : feedMany M num (acc ++ [r]) M.init rest = .finished rs := by
            simpa [feedMany, hs, hn] using h
          simpa [feedMany, hs, hn] using
            (ih ys (acc ++ [r]) M.init).1 rs h'
        · intro acc' s' h
          have h' : feedMany M num (acc ++ [r]) M.init rest = .needMore acc' s' := by
            simpa [feedMany, hs, hn] using h
          simpa [feedMany, hs, hn] using
            (ih ys (acc ++ [r]) M.init).2.1 acc' s' h'
        · intro h
          have h' : feedMany M num (acc ++ [r]) M.init rest = .failed := by
            simpa [feedMany, hs, hn] using h
          simpa [feedMany, hs, hn] using
            (ih ys (acc ++ [r]) M.init).2.2 h'
    | fail =>
      refine ⟨?_, ?_, ?_⟩
      · intro rs h; simp [feedMany, hs] at h
      · intro acc' s' h; simp [feedMany, hs] at h
      · intro h; simp [feedMany, hs]

/-- A successful `read` returns the complete parse of exactly the
nonempty data chunks it consumed from the transport. -/
theorem readT_ok_complete (M : Machine σ R) :
    ∀ (chunks : List Chunk) (s : σ) (r : R) (rest : List Chunk),
      readT M s chunks = (.ok r, rest) →
      ∃ (used : List Chunk) (leftover : List Nat),
        chunks = used ++ rest ∧
        (∀ c ∈ used, ∃ b bs, c = Chunk.data (b :: bs)) ∧
        parse M s ((used.map chunkBytes).flatten) = .complete r leftover := by
  intro chunks
  induction chunks with
  | nil => intro s r rest h; simp [readT] at h
  | cons c tail ih =>
    intro s r rest h
    match c with
    | .fail => simp [readT] at h
    | .data [] => simp [readT] at h
    | .data (b :: bs) =>
      cases hp : parse M s (b :: bs) with
      | complete r0 left =>
        have hrr : r0 = r ∧ tail = rest := by simpa [readT, hp] using h
        obtain ⟨h1, h2⟩ := hrr
        subst h1; subst h2
        exact ⟨[Chunk.data (b :: bs)], left, rfl, by simp,
          by simpa [chunkBytes] using hp⟩
      | more s' =>
        have h' : readT M s' tail = (.ok r, rest) := by simpa [readT, hp] using h
        obtain ⟨used, leftover, hEq, hAll, hParse⟩ := ih s' r rest h'
        refine ⟨Chunk.data (b :: bs) :: used, leftover, by simp [hEq], ?_, ?_⟩
        · intro c hc
          rcases List.mem_cons.mp hc with h1 | h1
          · exact ⟨b, bs, h1⟩
          · exact hAll c h1
        · have happ := parse_append_more M (b :: bs) s s'
            ((used.map chunkBytes).flatten) hp
          simp only [List.map_cons, List.flatten_cons, chunkBytes]
          rw [happ]
          exact hParse
      | failed => simp [readT, hp] at h

theorem feedMany_zero_ne_finished (M : Machine σ R) :
    ∀ (bytes : List Nat) (acc : List R) (s : σ) (rs : List R),
      feedMany M 0 acc s bytes ≠ .finished rs := by
  intro bytes
  induction bytes with
  | nil => intro acc s rs h; simp [feedMany] at h
  | cons b rest ih =>
    intro acc s rs h
    cases hs : M.step s b with
    | cont s2 =>
      have h' : feedMany M 0 acc s2 rest = .finished rs := by
        simpa [feedMany, hs] using h
      exact ih acc s2 rs h'
    | done r =>
      have h' : feedMany M 0 (acc ++ [r]) M.init rest = .finished rs := by
        simpa [feedMany, hs] using h
      exact ih (acc ++ [r]) M.init rs h'
    | fail => simp [feedMany, hs] at h

theorem readManyT_zero_error (M : Machine σ R) :
    ∀ (chunks : List Chunk) (acc : List R) (s : σ),
      ∃ e rest, readManyT M 0 acc s chunks = (.error e, rest) := by
  intro chunks
  induction chunks with
  | nil => intro acc s; exact ⟨.unparseableReply, [], rfl⟩
  | cons c tail ih =>
    intro acc s
    match c with
    | .fail => exact ⟨.transport, tail, rfl⟩
    | .data [] => exact ⟨.unparseableReply, tail, rfl⟩
    | .data (b :: bs) =>
      cases hf : feedMany M 0 acc s (b :: bs) with
      | finished rs => exact absurd hf (feedMany_zero_ne_finished M (b :: bs) acc s rs)
      | needMore acc' s' =>
        obtain ⟨e, rest, h⟩ := ih acc' s'
        exact ⟨e, rest, by simp [readManyT, hf, h]⟩
      | failed => exact ⟨.unparseableReply, tail, by simp [readManyT, hf]⟩

/-- Partial mid-reply progress: a prefix of nonempty data chunks whose
concatenated bytes have only produced needs-more-data signals carries
the loop of `read` to the reached parser state, with the remaining
chunks still to be pulled. -/
theorem readT_progress (M : Machine σ R) :
    ∀ (used : List Chunk) (s0 s : σ) (tail : List Chunk),
      (∀ c ∈ used, ∃ b bs, c = Chunk.data (b :: bs)) →
      parse M s0 ((used.map chunkBytes).flatten) = .more s →
      readT M s0 (used ++ tail) = readT M s tail := by
  intro used
  induction used with
  | nil =>
    intro s0 s tail _ hprog
    have hss : s0 = s := by simpa [parse] using hprog
    rw [hss]
    rfl
  | cons c used' ih =>
    intro s0 s tail hused hprog
    obtain ⟨b, bs, hc⟩ := hused c (List.mem_cons_self _ _)
    subst hc
    simp only [List.map_cons, List.flatten_cons, chunkBytes] at hprog
    cases hq : parse M s0 (b :: bs) with
    | complete r0 left0 =>
      exfalso
      rw [parse_append_complete M (b :: bs) s0 r0 left0 _ hq] at hprog
      simp at hprog
    | failed =>
      exfalso
      rw [parse_append_failed M (b :: bs) s0 _ hq] at hprog
      simp at hprog
    | more s1 =>
      rw [parse_append_more M (b :: bs) s0 s1 _ hq] at hprog
      have hind := ih s1 s tail
        (fun c hc => hused c (List.mem_cons_of_mem _ hc)) hprog
      simpa [readT, hq] using hind

/-! ### Claims about the response reader -/

/-- C6.  At every point of `read`'s chunk loop — after any partial
mid-reply progress, i.e. any consumed prefix of nonempty data chunks
that left the parser needing more data — an exhausted transport, a
zero-byte read (peer closed) and a parser grammar error each make
`read` fail with the unparseable-reply error, and a transport I/O
error propagates as the transport error; and whenever `read` succeeds,
the returned value is one complete reply — the complete parse of
exactly the consumed nonempty data chunks — never a partial one. -/
theorem c6_read_total (M : Machine σ R) :
    (∀ (used : List Chunk) (s : σ),
      (∀ c ∈ used, ∃ b bs, c = Chunk.data (b :: bs)) →
      parse M M.init ((used.map chunkBytes).flatten) = .more s →
      read M used = (.error .unparseableReply, [])) ∧
    (∀ (used : List Chunk) (s : σ) (rest : List Chunk),
      (∀ c ∈ used, ∃ b bs, c = Chunk.data (b :: bs)) →
      parse M M.init ((used.map chunkBytes).flatten) = .more s →
      read M (used ++ Chunk.data [] :: rest)
        = (.error .unparseableReply, rest)) ∧
    (∀ (used : List Chunk) (s : σ) (b : Nat) (bs : List Nat)
      (rest : List Chunk),
      (∀ c ∈ used, ∃ b' bs', c = Chunk.data (b' :: bs')) →
      parse M M.init ((used.map chunkBytes).flatten) = .more s →
      parse M s (b :: bs) = .failed →
      read M (used ++ Chunk.data (b :: bs) :: rest)
        = (.error .unparseableReply, rest)) ∧
    (∀ (used : List Chunk) (s : σ) (rest : List Chunk),
      (∀ c ∈ used, ∃ b bs, c = Chunk.data (b :: bs)) →
      parse M M.init ((used.map chunkBytes).flatten) = .more s →
      read M (used ++ Chunk.fail :: rest) = (.error .transport, rest)) ∧
    (∀ (chunks : List Chunk) (r : R) (rest : List Chunk),
      read M chunks = (.ok r, rest) →
      ∃ (used : List Chunk) (leftover : List Nat),
        chunks = used ++ rest ∧
        (∀ c ∈ used, ∃ b bs, c = Chunk.data (b :: bs)) ∧
        parse M M.init ((used.map chunkBytes).flatten)
          = .complete r leftover) := by
  refine ⟨?_, ?_, ?_, ?_, ?_⟩
  · intro used s hused hprog
    have h' := readT_progress M used M.init s [] hused hprog
    rw [List.append_nil] at h'
    unfold read
    rw [h']
    rfl
  · intro used s rest hused hprog
    have h' := readT_progress M used M.init s (Chunk.data [] :: rest) hused hprog
    unfold read
    rw [h']
    rfl
  · intro used s b bs rest hused hprog hfail
    have h' := readT_progress M used M.init s (Chunk.data (b :: bs) :: rest)
      hused hprog
    unfold read
    rw [h']
    simp [readT, hfail]
  · intro used s rest hused hprog
    have h' := readT_progress M used M.init s (Chunk.fail :: rest) hused hprog
    unfold read
    rw [h']
    rfl
  · intro chunks r rest h
    exact readT_ok_complete M chunks M.init r rest h

/-- C6, witness: a grammar error arriving only after partial mid-reply
progress across chunks ("a" consumed, then the offending byte 0 in a
later chunk) is reported as the unparseable-reply error; and a reply
split mid-line over the transport is returned complete by `read`, with
the consumed chunks accounted for. -/
theorem c6_read_total_witness :
    read lineFM [Chunk.data [97], Chunk.data [0], Chunk.data [5]]
        = (.error .unparseableReply, [Chunk.data [5]]) ∧
    ∃ (used : List Chunk) (leftover : List Nat),
      [Chunk.data [97, 10], Chunk.data [98]] = used ++ [Chunk.data [98]] ∧
      (∀ c ∈ used, ∃ b bs, c = Chunk.data (b :: bs)) ∧
      parse lineM lineM.init ((used.map chunkBytes).flatten)
        = .complete [97] leftover := by
  constructor
  · exact (c6_read_total lineFM).2.2.1 [Chunk.data [97]] [97] 0 []
      [Chunk.data [5]]
      (by intro c hc; rw [List.mem_singleton] at hc; exact ⟨97, [], hc⟩)
      rfl rfl
  · exact (c6_read_total lineM).2.2.2.2 [Chunk.data [97, 10], Chunk.data [98]]
      [97] [Chunk.data [98]] rfl

/-- A successful `read_many` produces the same replies as running the
inner loop once over the concatenation of all transport bytes: chunk
boundaries are invisible, because leftover bytes after a completed
reply within a chunk are consumed (after the cursor reset) before
another chunk is pulled. -/
theorem readManyT_ok_concat (M : Machine σ R) (num : Nat) :
    ∀ (chunks : List Chunk) (acc : List R) (s : σ) (rs : List R)
      (rest : List Chunk),
      readManyT M num acc s chunks = (.ok rs, rest) →
      feedMany M num acc s ((chunks.map chunkBytes).flatten) = .finished rs := by
  intro chunks
  induction chunks with
  | nil => intro acc s rs rest h; simp [readManyT] at h
  | cons c tail ih =>
    intro acc s rs rest h
    match c with
    | .fail => simp [readManyT] at h
    | .data [] => simp [readManyT] at h
    | .data (b :: bs) =>
      cases hf : feedMany M num acc s (b :: bs) with
      | finished rs0 =>
        have hrr : rs0 = rs := by
          have := h
          simp [readManyT, hf] at this
          exact this.1
        subst hrr
        simp only [List.map_cons, List.flatten_cons, chunkBytes]
        exact (feedMany_append M num (b :: bs) ((tail.map chunkBytes).flatten)
          acc s).1 rs0 hf
      | needMore acc' s' =>
        have h' : readManyT M num acc' s' tail = (.ok rs, rest) := by
          simpa [readManyT, hf] using h
        have hind := ih acc' s' rs rest h'
        simp only [List.map_cons, List.flatten_cons, chunkBytes]
        rw [(feedMany_append M num (b :: bs) ((tail.map chunkBytes).flatten)
          acc s).2.1 acc' s' hf]
        exact hind
      | failed => simp [readManyT, hf] at h

/-- A chunk group holding exactly one complete reply is consumed whole
by one `read` call, which returns that reply. -/
theorem readT_group (M : Machine σ R) :
    ∀ (g : List (List Nat)) (s : σ) (r : R) (rest : List Chunk),
      g ≠ [] → (∀ c ∈ g, c ≠ []) →
      parse M s g.flatten = .complete r [] →
      readT M s (g.map Chunk.data ++ rest) = (.ok r, rest) := by
  intro g
  induction g with
  | nil => intro s r rest h _ _; exact absurd rfl h
  | cons c g' ih =>
    intro s r rest _ hcs hp
    obtain ⟨b, bs, hc⟩ : ∃ b bs, c = b :: bs := by
      cases c with
      | nil => exact absurd rfl (hcs [] (List.mem_cons_self _ _))
      | cons b bs => exact ⟨b, bs, rfl⟩
    subst hc
    cases g' with
    | nil =>
      have hp' : parse M s (b :: bs) = .complete r [] := by simpa using hp
      simp [readT, hp']
    | cons c2 g'' =>
      cases hq : parse M s (b :: bs) with
      | complete r0 left0 =>
        exfalso
        have happ := parse_append_complete M (b :: bs) s r0 left0
          ((c2 :: g'').flatten) hq
        rw [List.flatten_cons, happ] at hp
        injection hp with h1 h2
        have hnil : (c2 :: g'').flatten = [] := (List.append_eq_nil.mp h2).2
        rw [List.flatten_cons] at hnil
        exact hcs c2 (List.mem_cons_of_mem _ (List.mem_cons_self _ _))
          (List.append_eq_nil.mp hnil).1
      | more s' =>
        have hmore := parse_append_more M (b :: bs) s s' ((c2 :: g'').flatten) hq
        have hp' : parse M s' ((c2 :: g'').flatten) = .complete r [] := by
          rw [← hmore]
          simpa [List.flatten_cons] using hp
        have hind := ih s' r rest (by simp)
          (fun c hc => hcs c (List.mem_cons_of_mem _ hc)) hp'
        simpa [readT, hq] using hind
      | failed =>
        exfalso
        have happ := parse_append_failed M (b :: bs) s ((c2 :: g'').flatten) hq
        rw [List.flatten_cons, happ] at hp
        simp at hp

/-- A chunk group holding exactly one complete reply advances
`read_many`'s outer loop by exactly that reply: either the expected
count is reached and the loop stops with it, or the loop continues on
the remaining chunks with the reply pushed and the parser reset. -/
theorem readManyT_group (M : Machine σ R) :
    ∀ (g : List (List Nat)) (s : σ) (r : R) (num : Nat) (acc : List R)
      (rest : List Chunk),
      g ≠ [] → (∀ c ∈ g, c ≠ []) →
      parse M s g.flatten = .complete r [] →
      readManyT M num acc s (g.map Chunk.data ++ rest) =
        if acc.length + 1 = num then (.ok (acc ++ [r]), rest)
        else readManyT M num (acc ++ [r]) M.init rest := by
  intro g
  induction g with
  | nil => intro s r num acc rest h _ _; exact absurd rfl h
  | cons c g' ih =>
    intro s r num acc rest _ hcs hp
    obtain ⟨b, bs, hc⟩ : ∃ b bs, c = b :: bs := by
      cases c with
      | nil => exact absurd rfl (hcs [] (List.mem_cons_self _ _))
      | cons b bs => exact ⟨b, bs, rfl⟩
    subst hc
    cases g' with
    | nil =>
      have hp' : parse M s (b :: bs) = .complete r [] := by simpa using hp
      have hfeq := feedMany_eq_parse M num (b :: bs) acc s
      rw [hp'] at hfeq
      by_cases hn : acc.length + 1 = num
      · have hfin : feedMany M num acc s (b :: bs) = .finished (acc ++ [r]) := by
          simpa [hn] using hfeq
        simp [readManyT, hfin, hn]
      · have hnm : feedMany M num acc s (b :: bs) = .needMore (acc ++ [r]) M.init := by
          simpa [hn, feedMany] using hfeq
        simp [readManyT, hnm, hn]
    | cons c2 g'' =>
      cases hq : parse M s (b :: bs) with
      | complete r0 left0 =>
        exfalso
        have happ := parse_append_complete M (b :: bs) s r0 left0
          ((c2 :: g'').flatten) hq
        rw [List.flatten_cons, happ] at hp
        injection hp with h1 h2
        have hnil : (c2 :: g'').flatten = [] := (List.append_eq_nil.mp h2).2
        rw [List.flatten_cons] at hnil
        exact hcs c2 (List.mem_cons_of_mem _ (List.mem_cons_self _ _))
          (List.append_eq_nil.mp hnil).1
      | more s' =>
        have hmore := parse_append_more M (b :: bs) s s' ((c2 :: g'').flatten) hq
        have hp' : parse M s' ((c2 :: g'').flatten) = .complete r [] := by
          rw [← hmore]
          simpa [List.flatten_cons] using hp
        have hnm : feedMany M num acc s (b :: bs) = .needMore acc s' := by
          have hfeq := feedMany_eq_parse M num (b :: bs) acc s
          rw [hq] at hfeq
          exact hfeq
        have hind := ih s' r num acc rest (by simp)
          (fun c hc => hcs c (List.mem_cons_of_mem _ hc)) hp'
        simpa [readManyT, hnm] using hind
      | failed =>
        exfalso
        have happ := parse_append_failed M (b :: bs) s ((c2 :: g'').flatten) hq
        rw [List.flatten_cons, happ] at hp
        simp at hp

theorem alignedB_cons_iff (M : Machine σ R) [DecidableEq R]
    (g : List (List Nat)) (gs : List (List (List Nat))) (r : R) (rs : List R) :
    alignedB M (g :: gs) (r :: rs) = true ↔
      (g ≠ [] ∧ (∀ c ∈ g, c ≠ []) ∧
        parse M M.init g.flatten = .complete r [] ∧ alignedB M gs rs = true) := by
  cases hp : parse M M.init g.flatten with
  | complete r' left =>
    simp [alignedB, hp, List.isEmpty_iff, List.all_eq_true, List.isEmpty_eq_false,
      and_assoc]
  | more s' => simp [alignedB, hp]
  | failed => simp [alignedB, hp]

/-- Under reply-aligned chunking, `n` sequential `read` calls return
the `n` replies in order. -/
theorem readN_aligned (M : Machine σ R) [DecidableEq R] :
    ∀ (groups : List (List (List Nat))) (rs : List R) (rest : List Chunk),
      alignedB M groups rs = true →
      readN M groups.length (groups.flatten.map Chunk.data ++ rest)
        = (.ok rs, rest) := by
  intro groups
  induction groups with
  | nil =>
    intro rs rest h
    cases rs with
    | nil => simp [readN]
    | cons r rs' => simp [alignedB] at h
  | cons g gs ih =>
    intro rs rest h
    cases rs with
    | nil => simp [alignedB] at h
    | cons r rs' =>
      rw [alignedB_cons_iff] at h
      obtain ⟨hg, hcs, hp, hrest⟩ := h
      have h1 := readT_group M g M.init r (gs.flatten.map Chunk.data ++ rest)
        hg hcs hp
      have h2 := ih rs' rest hrest
      simp only [List.length_cons, List.flatten_cons, List.map_append,
        List.append_assoc, readN, h1, h2]

/-- Under reply-aligned chunking, `read_many` accumulates the replies
group by group and stops exactly at the expected count. -/
theorem readManyT_aligned (M : Machine σ R) [DecidableEq R] :
    ∀ (groups : List (List (List Nat))) (rs acc : List R) (rest : List Chunk),
      alignedB M groups rs = true → groups ≠ [] →
      readManyT M (acc.length + groups.length) acc M.init
        (groups.flatten.map Chunk.data ++ rest) = (.ok (acc ++ rs), rest) := by
  intro groups
  induction groups with
  | nil => intro rs acc rest _ hne; exact absurd rfl hne
  | cons g gs ih =>
    intro rs acc rest h _
    cases rs with
    | nil => simp [alignedB] at h
    | cons r rs' =>
      rw [alignedB_cons_iff] at h
      obtain ⟨hg, hcs, hp, hrest⟩ := h
      have hB := readManyT_group M g M.init r (acc.length + (g :: gs).length) acc
        (gs.flatten.map Chunk.data ++ rest) hg hcs hp
      cases gs with
      | nil =>
        cases rs' with
        | cons _ _ => simp [alignedB] at hrest
        | nil =>
          have hn : acc.length + 1
              = acc.length + ([g] : List (List (List Nat))).length := by simp
          simp only [List.flatten_cons, List.flatten_nil, List.append_nil,
            List.map_nil, List.nil_append] at hB ⊢
          rw [hB, if_pos hn]
      | cons g2 gs' =>
        have hn : ¬ acc.length + 1 = acc.length + (g :: g2 :: gs').length := by
          simp only [List.length_cons]
          omega
        simp only [List.flatten_cons, List.map_append, List.append_assoc] at hB
        simp only [List.flatten_cons, List.map_append, List.append_assoc, hB,
          if_neg hn]
        have hnum : (acc ++ [r]).length + (g2 :: gs').length
            = acc.length + (g :: g2 :: gs').length := by
          simp only [List.length_append, List.length_cons, List.length_nil]
          omega
        have hind := ih rs' (acc ++ [r]) rest hrest (by simp)
        rw [hnum] at hind
        simp only [List.flatten_cons, List.map_append, List.append_assoc] at hind
        rw [hind]
        simp

/-! ### Claims about `read_many` versus sequential `read` -/

/-- C5, counterexample.  The claim asserts that `read_many(n)` always
equals `n` sequential `read` calls for replies split arbitrarily across
chunk boundaries.  With a chunk that carries the end of one reply and
the start of the next ("a\n" + "b" in one chunk), `read_many 2` returns
both replies, while the first sequential `read` call drops the leftover
bytes "b" with its local buffer, so the second `read` returns a
truncated second reply: the two disagree. -/
theorem c5_counterexample :
    (readMany lineM 2 [Chunk.data [97, 10, 98], Chunk.data [10]]).1
        = .ok [[97], [98]] ∧
    (readN lineM 2 [Chunk.data [97, 10, 98], Chunk.data [10]]).1
        = .ok [[97], []] ∧
    (readN lineM 2 [Chunk.data [97, 10, 98], Chunk.data [10]]).1
        ≠ (readMany lineM 2 [Chunk.data [97, 10, 98], Chunk.data [10]]).1 := by
  refine ⟨rfl, rfl, ?_⟩
  intro h
  have h' : (Except.ok [[97], []] : Except SErr (List (List Nat)))
      = Except.ok [[97], [98]] := h
  injection h' with h''
  simp at h''

/-- C5, amended.  `read_many(n)` returns exactly the `n` replies of the
transport stream in arrival order: (1) whenever it succeeds its result
equals a single inner-loop pass over the concatenation of all
transport bytes, i.e. leftover bytes after a completed reply within a
chunk are consumed for the next reply's parse, after a cursor reset,
before another chunk is pulled; and (2) when chunk boundaries are
aligned with reply boundaries (each reply's bytes end its chunk, while
a reply may still be split across many chunks, including mid-status
line), `read_many(n)` and `n` sequential `read` calls agree, both
returning the `n` replies in order.  Without that alignment the two
can differ, since `read` drops leftover chunk bytes
(`c5_counterexample`). -/
theorem c5_amended :
    (∀ {σ R : Type} [DecidableEq R] (M : Machine σ R)
      (groups : List (List (List Nat))) (rs : List R),
      alignedB M groups rs = true → groups ≠ [] →
      (readMany M groups.length (chunksOf groups)).1 = .ok rs ∧
      (readN M groups.length (chunksOf groups)).1 = .ok rs) ∧
    (∀ {σ R : Type} (M : Machine σ R) (num : Nat) (chunks rest : List Chunk)
      (rs : List R),
      readMany M num chunks = (.ok rs, rest) →
      feedMany M num [] M.init ((chunks.map chunkBytes).flatten)
        = .finished rs) := by
  constructor
  · intro σ R instR M groups rs hal hne
    have h1 := readManyT_aligned M groups rs [] [] hal hne
    have h2 := readN_aligned M groups rs [] hal
    constructor
    · unfold readMany
      rw [show (([] : List R).length + groups.length) = groups.length
        from by simp] at h1
      rw [show chunksOf groups = groups.flatten.map Chunk.data ++ [] from by
        simp [chunksOf]]
      rw [h1]
      simp
    · rw [show chunksOf groups = groups.flatten.map Chunk.data ++ [] from by
        simp [chunksOf]]
      rw [h2]
  · intro σ R M num chunks rest rs h
    exact readManyT_ok_concat M num chunks [] M.init rs rest h

/-- C5, witness: two line replies, the first split mid-reply across two
chunks, each reply ending exactly at a chunk boundary; `read_many 2`
and two sequential `read` calls agree. -/
theorem c5_amended_witness :
    (readMany lineM 2 [Chunk.data [97], Chunk.data [10], Chunk.data [98, 10]]).1
        = .ok [[97], [98]] ∧
    (readN lineM 2 [Chunk.data [97], Chunk.data [10], Chunk.data [98, 10]]).1
        = .ok [[97], [98]] := by
  have h := c5_amended.1 lineM [[[97], [10]], [[98, 10]]] [[97], [98]]
    (by decide) (by decide)
  simpa [chunksOf] using h

/-- C10.  `read_many(0)` never returns successfully: the accumulated
count is compared with the expected count only after a push, so with
`num = 0` the loop consumes the whole transport and ends in an error
(transport failure or unparseable-reply on exhaustion / zero-byte
read); consequently `cmds` with an empty command iterator never
succeeds either. -/
theorem c10_read_many_zero :
    (∀ {σ R : Type} (M : Machine σ R) (chunks : List Chunk),
      ∃ e rest, readMany M 0 chunks = (.error e, rest)) ∧
    (∀ {σ R : Type} (M : Machine σ R) (budget flushT : Nat) (flushErr : Bool)
      (chunks : List Chunk) (lats : List Nat),
      ∃ e, cmds M budget [] flushT flushErr chunks lats = .error e) := by
  constructor
  · intro σ R M chunks
    exact readManyT_zero_error M chunks [] M.init
  · intro σ R M budget flushT flushErr chunks lats
    obtain ⟨e, rest, h⟩ := readManyT_zero_error M chunks [] M.init
    cases flushErr with
    | true => simp only [cmds, writePhase]; split_ifs <;> exact ⟨_, rfl⟩
    | false =>
      simp only [cmds, writePhase, h]
      split_ifs <;> exact ⟨_, rfl⟩

/-! ### Claims about timeouts and error propagation in the pipeline -/

/-- C7, counterexample.  The claim says every network step of the
connect sequence, including the initial greeting read, is bounded by
the configured per-call timeout, failing with the timeout error when it
elapses.  In the source (builder.rs:76) the greeting is read by a bare
`client.read()` with no timeout wrapper: with a per-call timeout of 1
and a greeting chunk arriving after 1000, `connect` still succeeds and
no timeout error is produced. -/
theorem c7_counterexample :
    connect greetM ⟨1, .plain, false, none, false⟩
        ⟨none, [Chunk.data [1]], [1000], .ok ⟨true⟩, none, .ok ⟨true⟩, none⟩
      = ([.openSock, .greet], .ok ()) ∧
    1 < readElapsed [Chunk.data [1]]
        (readT greetM greetM.init [Chunk.data [1]]).2 [1000] := by
  exact ⟨rfl, by decide⟩

/-- C7, amended.  `cmd` and `cmds` are each bounded by the single
per-call timeout: whenever the inner write/flush/read sequence would
stop strictly after the budget, the call fails with the distinct
timeout error (so no reply is returned), and a successful call implies
the sequence completed within the budget.  The connect sequence's
transport open and initial greeting read are not wrapped by this
timeout (`c7_counterexample`). -/
theorem c7_amended :
    (∀ {σ R : Type} (M : Machine σ R) (budget wt : Nat) (werr : Bool)
      (chunks : List Chunk) (lats : List Nat),
      budget < cmdElapsed M wt werr chunks lats →
      cmd M budget (wt, werr) chunks lats = .error .timeout) ∧
    (∀ {σ R : Type} (M : Machine σ R) (budget wt : Nat) (werr : Bool)
      (chunks : List Chunk) (lats : List Nat) (r : R),
      cmd M budget (wt, werr) chunks lats = .ok r →
      cmdElapsed M wt werr chunks lats ≤ budget) ∧
    (∀ {σ R : Type} (M : Machine σ R) (budget : Nat) (writes : List (Nat × Bool))
      (flushT : Nat) (flushErr : Bool) (chunks : List Chunk) (lats : List Nat),
      budget < cmdsElapsed M writes flushT flushErr chunks lats →
      cmds M budget writes flushT flushErr chunks lats = .error .timeout) ∧
    (∀ {σ R : Type} (M : Machine σ R) (budget : Nat) (writes : List (Nat × Bool))
      (flushT : Nat) (flushErr : Bool) (chunks : List Chunk) (lats : List Nat)
      (rs : List R),
      cmds M budget writes flushT flushErr chunks lats = .ok rs →
      cmdsElapsed M writes flushT flushErr chunks lats ≤ budget) := by
  refine ⟨?_, ?_, ?_, ?_⟩
  · intro σ R M budget wt werr chunks lats h
    cases werr with
    | true =>
      have h' : budget < wt := by simpa [cmdElapsed] using h
      simp [cmd, h']
    | false =>
      have h' : budget < wt + readElapsed chunks (readT M M.init chunks).2 lats := by
        simpa [cmdElapsed] using h
      simp [cmd, h']
  · intro σ R M budget wt werr chunks lats r h
    cases werr with
    | true =>
      exfalso
      by_cases hb : budget < wt
      · simp [cmd, hb] at h
      · simp [cmd, hb] at h
    | false =>
      by_cases hb : budget < wt + readElapsed chunks (readT M M.init chunks).2 lats
      · exfalso; simp [cmd, hb] at h
      · simpa [cmdElapsed] using Nat.le_of_not_lt hb
  · intro σ R M budget writes flushT flushErr chunks lats h
    simp only [cmds, cmdsElapsed] at h ⊢
    by_cases h1 : (writePhase writes).2.1
    · simp only [h1, if_true] at h ⊢
      rw [if_pos h]
    · by_cases h2 : flushErr
      · simp only [h1, h2, Bool.false_eq_true, if_false, if_true] at h ⊢
        rw [if_pos h]
      · simp only [h1, h2, Bool.false_eq_true, if_false] at h ⊢
        rw [if_pos h]
  · intro σ R M budget writes flushT flushErr chunks lats rs h
    simp only [cmds, cmdsElapsed] at h ⊢
    by_cases h1 : (writePhase writes).2.1
    · exfalso
      simp only [h1, if_true] at h
      split at h <;> simp at h
    · by_cases h2 : flushErr
      · exfalso
        simp only [h1, h2, Bool.false_eq_true, if_false, if_true] at h
        split at h <;> simp at h
      · simp only [h1, h2, Bool.false_eq_true, if_false] at h ⊢
        by_cases hb : budget < (writePhase writes).1 + flushT +
          readElapsed chunks (readManyT M (writePhase writes).2.2 [] M.init chunks).2 lats
        · exfalso; rw [if_pos hb] at h; simp at h
        · exact Nat.le_of_not_lt hb

/-- C7, witness: a read phase of duration 5 against a budget of 1 makes
`cmd` fail with the timeout error. -/
theorem c7_amended_witness :
    cmd greetM 1 (0, false) [Chunk.data [7]] [5] = .error .timeout :=
  c7_amended.1 greetM 1 0 false [Chunk.data [7]] [5] (by decide)

/-- C8, counterexample.  The claim says a transport write/flush error
is untimed — not subject to the per-call timeout.  In the source the
writes sit inside the `timeout(...)` block: a write that fails only
after the budget has elapsed (duration 5, budget 3) is reported as the
timeout error, not as the transport error. -/
theorem c8_counterexample :
    cmd greetM 3 (5, true) [] [] = .error .timeout ∧
    (SErr.timeout ≠ SErr.transport) :=
  ⟨rfl, by decide⟩

/-- C8, amended.  A transport write/flush error that occurs within the
budget propagates immediately as the transport error, independent of
the read phase (which is never entered), and is reported distinctly
from the timeout error and from read failures; but the write phase is
inside the per-call timeout, so a write failure completing after the
budget is reported as the timeout error instead (`c8_counterexample`). -/
theorem c8_amended :
    (∀ {σ R : Type} (M : Machine σ R) (budget wt : Nat)
      (chunks chunks' : List Chunk) (lats lats' : List Nat),
      wt ≤ budget →
      cmd M budget (wt, true) chunks lats = .error .transport ∧
      cmd M budget (wt, true) chunks lats = cmd M budget (wt, true) chunks' lats') ∧
    (∀ {σ R : Type} (M : Machine σ R) (budget : Nat) (writes : List (Nat × Bool))
      (flushT : Nat) (flushErr : Bool) (chunks : List Chunk) (lats : List Nat),
      (writePhase writes).2.1 = true → (writePhase writes).1 ≤ budget →
      cmds M budget writes flushT flushErr chunks lats = .error .transport) ∧
    (∀ {σ R : Type} (M : Machine σ R) (budget : Nat) (writes : List (Nat × Bool))
      (flushT : Nat) (chunks : List Chunk) (lats : List Nat),
      (writePhase writes).2.1 = false → (writePhase writes).1 + flushT ≤ budget →
      cmds M budget writes flushT true chunks lats = .error .transport) ∧
    (SErr.transport ≠ SErr.timeout ∧ SErr.transport ≠ SErr.unparseableReply) := by
  refine ⟨?_, ?_, ?_, by decide, by decide⟩
  · intro σ R M budget wt chunks chunks' lats lats' h
    constructor
    · simp [cmd, Nat.not_lt.mpr h]
    · simp [cmd]
  · intro σ R M budget writes flushT flushErr chunks lats h1 h2
    simp [cmds, h1, Nat.not_lt.mpr h2]
  · intro σ R M budget writes flushT chunks lats h1 h2
    simp [cmds, h1, Nat.not_lt.mpr h2]

/-- C8, witness: a write failing at duration 2 against a budget of 3
surfaces as the transport error in `cmd`, and a first-command write
failure at duration 1 does the same in `cmds`. -/
theorem c8_amended_witness :
    cmd greetM 3 (2, true) [] [] = .error .transport ∧
    cmds greetM 3 [(1, true)] 0 false [] [] = .error .transport :=
  ⟨(c8_amended.1 greetM 3 2 [] [] [] [] (by decide)).1,
   c8_amended.2.1 greetM 3 [(1, true)] 0 false [] [] (by decide) (by decide)⟩

/-! ### Claims about the session establisher -/

theorem postUpgrade_auth (cfg : BuilderCfg) (env : ConnectEnv) (evs : List Ev) :
    cfg.sayEhlo = true → cfg.credentials.isSome = true →
    (postUpgrade cfg env evs).2 = .ok () →
    Ev.auth ∈ (postUpgrade cfg env evs).1 := by
  intro h1 h2 h3
  cases hcr : cfg.credentials with
  | none => rw [hcr] at h2; simp at h2
  | some c =>
    cases hec : env.ehloCaps with
    | error e => simp [postUpgrade, h1, hec] at h3
    | ok caps =>
      cases ha : env.auth with
      | some e => simp [postUpgrade, h1, hec, hcr, ha] at h3
      | none => simp [postUpgrade, h1, hec, hcr, ha]

/-- C4.  With the upgrade-after-connect security mode configured and a
capability set that lacks the StartTls feature token, `connect` fails
with the missing-upgrade-support error; and — with no assumption on how
the earlier steps went — the upgrade operation is never invoked in such
a run. -/
theorem c4_missing_starttls :
    (∀ {σ : Type} (M : Machine σ SReply) (cfg : BuilderCfg) (env : ConnectEnv)
      (r : SReply) (resp : EhloResp),
      cfg.secureTransport = .startTls →
      env.openOk = none →
      (readT M M.init env.greeting).1 = .ok r →
      r.code / 100 = 2 →
      env.ehloPre = .ok resp →
      resp.hasStartTls = false →
      connect M cfg env
        = ([.openSock, .greet, .ehloPre], .error .missingStartTls)) ∧
    (∀ {σ : Type} (M : Machine σ SReply) (cfg : BuilderCfg) (env : ConnectEnv)
      (resp : EhloResp),
      cfg.secureTransport = .startTls →
      env.ehloPre = .ok resp →
      resp.hasStartTls = false →
      Ev.tlsUpgrade ∉ (connect M cfg env).1) := by
  constructor
  · intro σ M cfg env r resp h1 h2 h3 h4 h5 h6
    simp [connect, h1, h2, h3, h4, h5, h6]
  · intro σ M cfg env resp h1 h2 h3
    cases ho : env.openOk with
    | some e => simp [connect, ho]
    | none =>
      cases hr : (readT M M.init env.greeting).1 with
      | error e => simp [connect, ho, hr]
      | ok r =>
        by_cases hc : r.code / 100 = 2
        · simp [connect, ho, hr, hc, h1, h2, h3]
        · simp [connect, ho, hr, hc]

/-- C4, witness: a StartTls-configured connect against a peer whose
capability set lacks StartTls fails with the missing-upgrade-support
error (and, per the theorem's second half, never upgrades). -/
theorem c4_missing_starttls_witness :
    connect greetM ⟨60, .startTls, false, none, true⟩
        ⟨none, [Chunk.data [1]], [], .ok ⟨false⟩, none, .ok ⟨false⟩, none⟩
      = ([.openSock, .greet, .ehloPre], .error .missingStartTls) :=
  c4_missing_starttls.1 greetM ⟨60, .startTls, false, none, true⟩
    ⟨none, [Chunk.data [1]], [], .ok ⟨false⟩, none, .ok ⟨false⟩, none⟩
    ⟨220⟩ ⟨false⟩ rfl rfl rfl (by decide) rfl rfl

/-- C9, counterexample.  The claim says `connect` never returns a
session for a credentialed configuration without attempting
authentication.  With credentials set but `say_ehlo` disabled
(builder.rs:96: authentication is nested under `if self.say_ehlo`),
`connect` succeeds without ever invoking the authentication exchange. -/
theorem c9_counterexample :
    connect greetM ⟨60, .plain, false, some (), false⟩
        ⟨none, [Chunk.data [1]], [], .ok ⟨true⟩, none, .ok ⟨true⟩, none⟩
      = ([.openSock, .greet], .ok ()) ∧
    Ev.auth ∉ (connect greetM ⟨60, .plain, false, some (), false⟩
        ⟨none, [Chunk.data [1]], [], .ok ⟨true⟩, none, .ok ⟨true⟩, none⟩).1 ∧
    (⟨60, .plain, false, some (), false⟩ : BuilderCfg).credentials.isSome
      = true := by
  refine ⟨rfl, ?_, rfl⟩
  decide

/-- C9, amended.  For every configuration with credentials set and the
capability-announce phase enabled (`say_ehlo = true`, its default), a
successful `connect` has run the authentication exchange before
returning; with `say_ehlo = false` authentication is skipped even when
credentials are configured (`c9_counterexample`). -/
theorem c9_amended :
    ∀ {σ : Type} (M : Machine σ SReply) (cfg : BuilderCfg) (env : ConnectEnv),
      cfg.sayEhlo = true →
      cfg.credentials.isSome = true →
      (connect M cfg env).2 = .ok () →
      Ev.auth ∈ (connect M cfg env).1 := by
  intro σ M cfg env h1 h2 h3
  cases ho : env.openOk with
  | some e => simp [connect, ho] at h3
  | none =>
    cases hr : (readT M M.init env.greeting).1 with
    | error e => simp [connect, ho, hr] at h3
    | ok r =>
      by_cases hc : r.code / 100 = 2
      · by_cases hs : cfg.secureTransport = .startTls
        · cases he : env.ehloPre with
          | error e => simp [connect, ho, hr, hc, hs, he] at h3
          | ok resp =>
            by_cases ht : resp.hasStartTls
            · cases hu : env.tlsUpgrade with
              | some e => simp [connect, ho, hr, hc, hs, he, ht, hu] at h3
              | none =>
                simp only [connect, ho, hr, hc, hs, he, ht, hu, if_pos,
                  if_true] at h3 ⊢
                exact postUpgrade_auth cfg env _ h1 h2 (by simpa using h3)
            · simp [connect, ho, hr, hc, hs, he, ht] at h3
        · simp only [connect, ho, hr, hc, hs] at h3 ⊢
          exact postUpgrade_auth cfg env _ h1 h2 (by simpa [hs] using h3)
      · simp [connect, ho, hr, hc] at h3

/-- C9, witness: with credentials configured and `say_ehlo` enabled, a
successful `connect` shows the authentication exchange in its trace. -/
theorem c9_amended_witness :
    Ev.auth ∈ (connect greetM ⟨60, .plain, false, some (), true⟩
        ⟨none, [Chunk.data [1]], [], .ok ⟨true⟩, none, .ok ⟨true⟩, none⟩).1 :=
  c9_amended greetM ⟨60, .plain, false, some (), true⟩
    ⟨none, [Chunk.data [1]], [], .ok ⟨true⟩, none, .ok ⟨true⟩, none⟩
    rfl rfl rfl

end MailSend
